import Mathlib

/-!
# make.go: cross-compilation build script

A shallow embedding of `make.go` and proofs about artifact naming, environment
overriding, version resolution, action selection, artifact removal and the
fan-out/join over target platforms.

Go strings are modelled by Lean `String`s (sequences of Unicode characters); the
only byte-level operation of the script, splitting at `"="`, cuts at an ASCII
character, where the byte and character views of valid UTF-8 text agree.
Slices are modelled by lists; `setEnv` is modelled by the slice it returns.
-/

namespace Make

/-! ## Standard library fragments used by the script -/

/-- Model of `fmt.Sprintf` for the fragment used by the script: the verbs `%s` and `%v`
applied to string operands (both print the operand as it is); every other character of
the format is copied. A verb without operand prints `%!s(MISSING)` as Go does. -/
def Sprintf : List Char → List String → String
  | [], _ => ""
  | '%' :: 's' :: rest, [] => "%!s(MISSING)" ++ Sprintf rest []
  | '%' :: 's' :: rest, a :: args => a ++ Sprintf rest args
  | '%' :: 'v' :: rest, [] => "%!v(MISSING)" ++ Sprintf rest []
  | '%' :: 'v' :: rest, a :: args => a ++ Sprintf rest args
  | c :: rest, args => String.singleton c ++ Sprintf rest args

/-- Model of `fmt.Sprintln` on string operands: operands separated by single spaces,
followed by a newline. -/
def Sprintln (args : List String) : String :=
  " ".intercalate args ++ "\n"

/-- Worker of `strings.Split` for a non-empty separator: `skip` counts the characters of
a matched separator still to be passed over, `cur` is the current field, reversed. -/
def splitGo (sep : List Char) : Nat → List Char → List Char → List (List Char)
  | _, cur, [] => [cur.reverse]
  | skip + 1, cur, _ :: rest => splitGo sep skip cur rest
  | 0, cur, c :: rest =>
    if sep.isPrefixOf (c :: rest) then cur.reverse :: splitGo sep (sep.length - 1) [] rest
    else splitGo sep 0 (c :: cur) rest

/-- Model of `strings.Split(s, sep)`: the fields of `s` between the non-overlapping
occurrences of `sep`, found left to right; an empty `sep` splits after each character. -/
def Split (s sep : String) : List String :=
  if sep.data = [] then s.data.map String.singleton
  else (splitGo sep.data 0 [] s.data).map String.mk

/-- Model of `unicode.IsSpace`: the Latin-1 spaces and the other characters with the
Unicode White_Space property. -/
def isSpace (c : Char) : Bool :=
  let n := c.toNat
  (0x09 ≤ n && n ≤ 0x0D) || n == 0x20 || n == 0x85 || n == 0xA0 || n == 0x1680 ||
  (0x2000 ≤ n && n ≤ 0x200A) || n == 0x2028 || n == 0x2029 || n == 0x202F ||
  n == 0x205F || n == 0x3000

/-- Model of `strings.TrimSpace`: leading white space is removed, then trailing white
space. -/
def TrimSpace (s : String) : String :=
  String.mk ((s.data.dropWhile isSpace).rdropWhile isSpace)

/-- Model of `strings.TrimPrefix(s, prefix)`: `s` without the leading `prefix`, or `s`
itself when it does not start with `prefix`. -/
def TrimPrefix (s pre : String) : String :=
  if pre.data.isPrefixOf s.data then String.mk (s.data.drop pre.data.length) else s

/-- Model of `strings.HasSuffix`. -/
def HasSuffix (s suffix : String) : Bool :=
  suffix.data.isSuffixOf s.data

/-! ## Data model -/

def commandName : String := "example-command"

structure platform where
  os : String
  arch : String
deriving DecidableEq, Repr

structure binary where
  name : String
  version : String
  targets : List platform
deriving DecidableEq, Repr

/-- Name returns the name of the binary with a certain format for a platform. -/
def binary.Name (bin : binary) (os arch : String) : String :=
  let s := Sprintf "%s_%s_%s-%s".toList [bin.name, bin.version, os, arch]
  if os = "windows" then s ++ ".exe" else s

/-- Names returns the name of the binary for all the target platforms. -/
def binary.Names (bin : binary) : List String :=
  bin.targets.map fun t => bin.Name t.os t.arch

/-- The target platforms configured in `main`. -/
def mainTargets : List platform :=
  [⟨"linux", "386"⟩, ⟨"linux", "amd64"⟩,
   ⟨"windows", "386"⟩, ⟨"windows", "amd64"⟩,
   ⟨"darwin", "386"⟩, ⟨"darwin", "amd64"⟩]

/-! ## Environment lists -/

/-- The text of an environment entry before its first `=` (the whole entry when it
contains no `=`). -/
def entryKey (e : String) : String :=
  String.mk (e.data.takeWhile (· != '='))

/-- Whether the text of an entry before its first `=` is `key`. -/
def hasKey (key : String) : String → Bool := fun e => decide (entryKey e = key)

/-- copyOSEnv returns a copy of the system's environment variables; `osEnviron` is the
value of `os.Environ()`. -/
def copyOSEnv (osEnviron : List String) : List String :=
  [] ++ osEnviron

/-- setEnv searches in a slice of environment variables with the form key=value for a
key and if found it sets its value, otherwise it adds the pair. `Split` with the
separator `"="` never returns an empty slice, so the default of `headD` is not used. -/
def setEnv : List String → String → String → List String
  | [], key, value => [Sprintf "%s=%s".toList [key, value]]
  | env :: rest, key, value =>
    if (Split env "=").headD "" = key then Sprintf "%s=%s".toList [key, value] :: rest
    else env :: setEnv rest key value

/-! ## Effects -/

/-- An error value returned by the operating system; `notExist` is what
`os.IsNotExist` answers for it. -/
structure OSError where
  msg : String
  notExist : Bool
deriving DecidableEq, Repr

/-- Outcome of running an external command and collecting its output. -/
inductive CmdResult where
  | ok (out : String)
  | fail (err : String)
deriving DecidableEq, Repr

/-- The environment of the process: what the operating system answers. -/
structure World where
  /-- value of `os.Environ()` -/
  environ : List String
  /-- outcome of `git describe --tags --always` -/
  git : CmdResult
  /-- outcome of `cmd.Run()` for an argument vector and an environment -/
  goBuild : List String → List String → Option String
  /-- outcome of `os.Remove` on a path -/
  remove : String → Option OSError

/-- Observable actions of the script. A `log` line is a line of the standard logger
(its timestamp prefix is not modelled). -/
inductive Event where
  | stdout (s : String)
  | stderr (s : String)
  | log (s : String)
  | run (argv : List String) (env : List String)
  | remove (path : String)
deriving DecidableEq, Repr

/-- Result of running a procedure: the actions it performed and, when it terminated
the process, the exit status. -/
structure Run where
  events : List Event
  exit : Option Nat
deriving DecidableEq, Repr

/-- Result of a function that either returns a value or terminates the process
through `log.Fatal`. -/
inductive Outcome (α : Type) where
  | ret (a : α)
  | fatal (msg : String)
deriving DecidableEq, Repr

/-- getVersion returns the version of the project using git. -/
def getVersion (git : CmdResult) : Outcome String :=
  match git with
  | .fail err => .fatal (Sprintf "Error running git describe: %v".toList [err])
  | .ok out => .ret (TrimPrefix (TrimSpace out) "v")

abbrev binaryFunc := binary → String → String → Run

/-- The environment handed to the compile invocation by `buildBinary`. -/
def buildEnv (osEnviron : List String) (OS arch : String) : List String :=
  setEnv (setEnv (copyOSEnv osEnviron) "GOOS" OS) "GOARCH" arch

/-- buildBinary builds a binary for a certain operating system and architecture
combination while using --ldflags to set the binary's version variable. -/
def buildBinary (w : World) : binaryFunc := fun bin OS arch =>
  let ldflags := Sprintf "--ldflags=-X main.version=%s".toList [bin.version]
  let argv := ["go", "build", ldflags, "-o", bin.Name OS arch]
  let env := buildEnv w.environ OS arch
  let evs := [Event.stdout (Sprintln ["Building binary:", bin.Name OS arch]), Event.run argv env]
  match w.goBuild argv env with
  | none => ⟨evs, none⟩
  | some err => ⟨evs ++ [Event.log (Sprintln ["Error running go build:", err])], some 1⟩

/-- rmBinary removes a binary from the current directory. -/
def rmBinary (w : World) : binaryFunc := fun bin OS arch =>
  let path := bin.Name OS arch
  match w.remove path with
  | none => ⟨[Event.remove path], none⟩
  | some err =>
    if !err.notExist then
      ⟨[Event.remove path, Event.stderr (Sprintln ["Error removing binary:", err.msg])], none⟩
    else ⟨[Event.remove path], none⟩

/-! ## Fan-out and join in `forEachBinTarget`

The goroutines and the `sync.WaitGroup` are modelled by a transition system. A
scheduler picks which thread takes the next step; `step` answers `none` when the
picked thread cannot move (it is blocked, finished or absent, or the process has
terminated). An invocation of `fn` performs its actions one step at a time, so the
actions of different invocations interleave; an invocation that terminates the process
does so in a step of its own after its last action. -/

/-- Progress of one launched goroutine: `fn` is running; `fn` has returned and the
deferred `wg.Done()` is pending; `wg.Done()` has been executed. -/
inductive Status where
  | running
  | fnReturned
  | finished
deriving DecidableEq, Repr

/-- A launched goroutine with the arguments of its closure and the number of actions
of `fn` it has performed. -/
structure Goroutine where
  bin : binary
  os : String
  arch : String
  pos : Nat
  status : Status
deriving DecidableEq, Repr

/-- The arguments a goroutine was launched with. -/
def Goroutine.args (g : Goroutine) : binary × String × String :=
  (g.bin, g.os, g.arch)

/-- The actions a goroutine has performed so far. -/
def Goroutine.performed (fn : binaryFunc) (g : Goroutine) : List Event :=
  (fn g.bin g.os g.arch).events.take g.pos

/-- Program counter of the thread that executes `forEachBinTarget`: at the head of the
loop for entry `i`; after `wg.Add(1)` and before the `go` statement for entry `i`; in
`wg.Wait()`; returned. -/
inductive PC where
  | loop (i : Nat)
  | spawn (i : Nat)
  | wait
  | returned
deriving DecidableEq, Repr

structure State where
  pc : PC
  /-- counter of the wait group -/
  wg : Int
  /-- goroutines in the order they were launched -/
  gs : List Goroutine
  /-- actions performed so far, in the order they happened -/
  events : List Event
  /-- exit status once some thread has terminated the process -/
  exited : Option Nat
deriving DecidableEq, Repr

/-- Choice of the scheduler: the calling thread, the body `fn` of goroutine `k`, or the
deferred `wg.Done()` of goroutine `k`. -/
inductive Sched where
  | caller
  | fn (k : Nat)
  | done (k : Nat)
deriving DecidableEq, Repr

def State.init : State :=
  { pc := .loop 0, wg := 0, gs := [], events := [], exited := none }

/-- One step of `forEachBinTarget(bin, fn)` under a choice of the scheduler. -/
def step (bin : binary) (fn : binaryFunc) (s : State) (c : Sched) : Option State :=
  if s.exited.isSome then none
  else
    match c with
    | .caller =>
      match s.pc with
      | .loop i =>
        match bin.targets[i]? with
        | some _ => some { s with pc := .spawn i, wg := s.wg + 1 }
        | none => some { s with pc := .wait }
      | .spawn i =>
        match bin.targets[i]? with
        | some t =>
          some { s with pc := .loop (i + 1), gs := s.gs ++ [⟨bin, t.os, t.arch, 0, .running⟩] }
        | none => none
      | .wait => if s.wg = 0 then some { s with pc := .returned } else none
      | .returned => none
    | .fn k =>
      match s.gs[k]? with
      | some g =>
        if g.status = .running then
          match (fn g.bin g.os g.arch).events[g.pos]? with
          | some e =>
            some { s with
              gs := s.gs.set k { g with pos := g.pos + 1 }
              events := s.events ++ [e] }
          | none =>
            match (fn g.bin g.os g.arch).exit with
            | some code => some { s with exited := some code }
            | none => some { s with gs := s.gs.set k { g with status := .fnReturned } }
        else none
      | none => none
    | .done k =>
      match s.gs[k]? with
      | some g =>
        if g.status = .fnReturned then
          some { s with gs := s.gs.set k { g with status := .finished }, wg := s.wg - 1 }
        else none
      | none => none

/-- Execution of `forEachBinTarget(bin, fn)` from state `s` under a schedule. -/
def exec (bin : binary) (fn : binaryFunc) (s : State) : List Sched → Option State
  | [] => some s
  | c :: cs =>
    match step bin fn s c with
    | some s' => exec bin fn s' cs
    | none => none

/-- forEachBinTarget runs a function for all the target platforms of a binary in
parallel: the state reached from the initial state under a schedule. -/
def forEachBinTarget (bin : binary) (fn : binaryFunc) (sched : List Sched) : Option State :=
  exec bin fn State.init sched

/-- The invocations `fn(bin, os, arch)` that the loop of `forEachBinTarget` launches:
one per entry of `bin.targets`, in order. -/
def launches (bin : binary) : List (binary × String × String) :=
  bin.targets.map fun t => (bin, t.os, t.arch)

/-! ## The program -/

/-- The command-line flags `--release`, `--clean`, `--os`, `--arch` after parsing. -/
structure Flags where
  release : Bool
  clean : Bool
  buildOS : String
  buildArch : String
deriving DecidableEq, Repr

/-- The process after `forEachBinTarget(bin, fn)` followed by `os.Exit(0)`: once the
call has returned the process exits with status 0. -/
def exitZero (s : State) : Run :=
  ⟨s.events, if s.pc = .returned then some 0 else s.exited⟩

/-- The run of `main` after the flags are parsed, under a schedule for the goroutines
of `forEachBinTarget`: the actions performed and the exit status if the process has
ended. Returning from `main` ends the process with status 0. -/
def main (flags : Flags) (w : World) (sched : List Sched) : Option Run :=
  match getVersion w.git with
  | .fatal msg => some ⟨[Event.log msg], some 1⟩
  | .ret version =>
    let bin : binary := { name := commandName, version := version, targets := mainTargets }
    if flags.release then
      (forEachBinTarget bin (buildBinary w) sched).map exitZero
    else if flags.clean then
      (forEachBinTarget bin (rmBinary w) sched).map exitZero
    else
      let r := buildBinary w bin flags.buildOS flags.buildArch
      some ⟨r.events, some (r.exit.getD 0)⟩

/-! ## Invariants and measures of the transition system -/

/-- Invariant of the transition system: the launched goroutines carry the arguments of
the first entries of `bin.targets`; the counter of the wait group is the number of
goroutines that have not executed `wg.Done()`, plus one between `wg.Add(1)` and the
`go` statement; the program counter agrees with the number of launched goroutines. -/
def Inv (bin : binary) (s : State) : Prop :=
  s.gs.map Goroutine.args = (launches bin).take s.gs.length ∧
  s.wg = ((s.gs.countP fun g => g.status != .finished : Nat) : Int) +
    (match s.pc with
     | .spawn _ => 1
     | _ => 0) ∧
  (match s.pc with
   | .loop i => s.gs.length = i
   | .spawn i => s.gs.length = i ∧ i < bin.targets.length
   | .wait => s.gs.length = bin.targets.length
   | .returned => s.gs.length = bin.targets.length ∧ ∀ g ∈ s.gs, g.status = .finished)

/-- Invariant on the trace: the trace consists of the actions the goroutines have
performed; an invocation that has returned has performed all its actions; an exit
status comes from an invocation that is still running. -/
def InvEv (fn : binaryFunc) (s : State) : Prop :=
  s.events.Perm (s.gs.flatMap (Goroutine.performed fn)) ∧
  (∀ g ∈ s.gs, g.status ≠ .running → (fn g.bin g.os g.arch).events.length ≤ g.pos) ∧
  (∀ c, s.exited = some c →
    ∃ g ∈ s.gs, g.status = .running ∧ (fn g.bin g.os g.arch).exit = some c)

/-- Steps a goroutine still has to take. -/
def Goroutine.work (fn : binaryFunc) (g : Goroutine) : Nat :=
  match g.status with
  | .running => ((fn g.bin g.os g.arch).events.length - g.pos) + 2
  | .fnReturned => 1
  | .finished => 0

/-- Steps needed for the entries of `bin.targets` from index `i` on. -/
def pending (bin : binary) (fn : binaryFunc) (i : Nat) : Nat :=
  ((bin.targets.drop i).map fun t => (fn bin t.os t.arch).events.length + 4).sum

/-- A bound on the number of steps until `forEachBinTarget` returns. -/
def State.work (bin : binary) (fn : binaryFunc) (s : State) : Nat :=
  (match s.pc with
   | .loop i => pending bin fn i + 2
   | .spawn i => pending bin fn i + 1
   | .wait => 1
   | .returned => 0) + (s.gs.map (Goroutine.work fn)).sum

/-- A world in which `git describe` prints `v1.2.3` and every compile invocation
fails. -/
def failingBuilds : World :=
  ⟨["PATH=/bin"], .ok "v1.2.3\n", fun _ _ => some "exit status 2", fun _ => none⟩


/-! ## Lemmas on the library fragments -/

theorem Sprintf_name (a b c d : String) :
    Sprintf "%s_%s_%s-%s".toList [a, b, c, d] = a ++ "_" ++ b ++ "_" ++ c ++ "-" ++ d := by
  apply String.ext
  simp [Sprintf, String.data_append]

theorem Sprintf_kv (k v : String) : Sprintf "%s=%s".toList [k, v] = k ++ "=" ++ v := by
  apply String.ext
  simp [Sprintf, String.data_append]

theorem Name_data (bin : binary) (os arch : String) :
    (bin.Name os arch).data =
      bin.name.data ++ '_' :: (bin.version.data ++ '_' :: (os.data ++ '-' :: (arch.data ++
        if os = "windows" then ['.', 'e', 'x', 'e'] else []))) := by
  unfold binary.Name
  simp only [Sprintf_name]
  split <;> simp [String.data_append]

theorem suffix_of_append {α : Type} (s a b : List α) (h : s <:+ a ++ b)
    (hl : s.length ≤ b.length) : s <:+ b := by
  rcases List.suffix_or_suffix_of_suffix h (List.suffix_append a b) with h1 | h1
  · exact h1
  · rw [List.IsSuffix.eq_of_length_le h1 hl]

theorem suffix_name_iff (n v s l : List Char) (h : s.length ≤ l.length) :
    s <:+ n ++ '_' :: (v ++ l) ↔ s <:+ l := by
  have e : n ++ '_' :: (v ++ l) = (n ++ '_' :: v) ++ l := by simp
  rw [e]
  exact ⟨fun hs => suffix_of_append _ _ _ hs h, fun hs => hs.trans (List.suffix_append _ _)⟩

theorem splitGo_eq_head (cur l : List Char) :
    (splitGo ['='] 0 cur l).headD [] = cur.reverse ++ l.takeWhile (· != '=') := by
  induction l generalizing cur with
  | nil => rw [splitGo]; simp only [List.headD_cons, List.takeWhile_nil, List.append_nil]
  | cons c rest ih =>
    by_cases hc : c = '='
    · subst hc
      have : ['='].isPrefixOf ('=' :: rest) = true := by simp [List.isPrefixOf]
      rw [splitGo, if_pos this]
      simp [List.takeWhile_cons]
    · have : ¬ (['='].isPrefixOf (c :: rest) = true) := by
        simp [List.isPrefixOf]
        exact fun h => hc h.symm
      rw [splitGo, if_neg this, ih]
      simp [List.takeWhile_cons, hc]

theorem splitGo_ne_nil (sep : List Char) (skip : Nat) (cur l : List Char) :
    splitGo sep skip cur l ≠ [] := by
  induction l generalizing skip cur with
  | nil => rw [splitGo]; simp
  | cons c rest ih =>
    cases skip with
    | zero =>
      rw [splitGo]
      split
      · simp
      · exact ih _ _
    | succ n =>
      rw [splitGo]
      exact ih _ _

/-- With a non-empty separator `Split` returns at least one field, so indexing its
result at `0` is defined. -/
theorem Split_ne_nil (s sep : String) (h : sep.data ≠ []) : Split s sep ≠ [] := by
  unfold Split
  rw [if_neg h]
  simpa using splitGo_ne_nil sep.data 0 [] s.data

theorem headD_map_mk (l : List (List Char)) :
    (l.map String.mk).headD "" = String.mk (l.headD []) := by
  cases l <;> rfl

/-- The key that `setEnv` compares, `strings.Split(env, "=")[0]`, is the text of the
entry before its first `=`. -/
theorem Split_head (e : String) : (Split e "=").headD "" = entryKey e := by
  have h : ("=" : String).data = ['='] := rfl
  unfold Split entryKey
  rw [h, if_neg (by simp), headD_map_mk, splitGo_eq_head]
  simp

theorem entryKey_kv (k v : String) (hk : '=' ∉ k.data) : entryKey (k ++ "=" ++ v) = k := by
  have h : ("=" : String).data = ['='] := rfl
  unfold entryKey
  apply String.ext
  simp only [String.data_append, h, List.append_assoc]
  rw [List.takeWhile_append_of_pos]
  · simp [List.takeWhile_cons]
  · intro c hc
    simp
    rintro rfl
    exact hk hc

theorem entryKey_no_eq (e : String) : '=' ∉ (entryKey e).data := by
  unfold entryKey
  intro h
  have := List.mem_takeWhile_imp h
  simp at this

/-! ## Lemmas on `setEnv` -/

theorem setEnv_absent (environ : List String) (key value : String)
    (h : ∀ e ∈ environ, entryKey e ≠ key) :
    setEnv environ key value = environ ++ [key ++ "=" ++ value] := by
  induction environ with
  | nil => rw [setEnv, Sprintf_kv]; simp
  | cons e rest ih =>
    have he : entryKey e ≠ key := h e (List.mem_cons_self _ _)
    rw [setEnv, Split_head, if_neg he, ih (fun x hx => h x (List.mem_cons_of_mem _ hx))]
    simp

theorem setEnv_present (environ : List String) (key value : String)
    (h : ∃ e ∈ environ, entryKey e = key) :
    setEnv environ key value =
      environ.set (environ.findIdx (hasKey key)) (key ++ "=" ++ value) := by
  induction environ with
  | nil => simp at h
  | cons e rest ih =>
    by_cases he : entryKey e = key
    · rw [setEnv, Split_head, if_pos he, Sprintf_kv]
      simp [List.findIdx_cons, hasKey, he]
    · rw [setEnv, Split_head, if_neg he]
      have h2 : ∃ x ∈ rest, entryKey x = key := by
        obtain ⟨x, hx, hk⟩ := h
        rcases List.mem_cons.mp hx with rfl | hx
        · exact absurd hk he
        · exact ⟨x, hx, hk⟩
      rw [ih h2]
      simp [List.findIdx_cons, hasKey, he]

/-- Every index of the result of `setEnv`: the pair sits at the position of the first
entry with the key (the length of the list when there is none), all else is as before. -/
theorem setEnv_getElem? (environ : List String) (key value : String) (i : Nat) :
    (setEnv environ key value)[i]? =
      if i = environ.findIdx (hasKey key) then some (key ++ "=" ++ value) else environ[i]? := by
  by_cases h : ∃ e ∈ environ, entryKey e = key
  · have hlt : environ.findIdx (hasKey key) < environ.length :=
      List.findIdx_lt_length_of_exists (by simpa [hasKey] using h)
    rw [setEnv_present _ _ _ h, List.getElem?_set]
    by_cases hi : environ.findIdx (hasKey key) = i
    · subst hi; simp [hlt]
    · simp [hi, Ne.symm hi]
  · have h' : ∀ e ∈ environ, entryKey e ≠ key := fun e he hk => h ⟨e, he, hk⟩
    have hidx : environ.findIdx (hasKey key) = environ.length :=
      List.findIdx_eq_length_of_false (by simpa [hasKey] using h')
    rw [setEnv_absent _ _ _ h', hidx, List.getElem?_append]
    by_cases hi : i < environ.length
    · simp [hi, Nat.ne_of_lt hi]
    · by_cases hi2 : i = environ.length
      · simp [hi2]
      · have h1 : environ[i]? = none := List.getElem?_eq_none (by omega)
        have h2 : [key ++ "=" ++ value][i - environ.length]? = none :=
          List.getElem?_eq_none (by simp; omega)
        simp [hi, hi2, h1, h2]

theorem setEnv_length (environ : List String) (key value : String) :
    (setEnv environ key value).length =
      environ.length + if (∃ e ∈ environ, entryKey e = key) then 0 else 1 := by
  by_cases h : ∃ e ∈ environ, entryKey e = key
  · rw [setEnv_present _ _ _ h, if_pos h]; simp
  · have h' : ∀ e ∈ environ, entryKey e ≠ key := fun e he hk => h ⟨e, he, hk⟩
    rw [setEnv_absent _ _ _ h', if_neg h]; simp


theorem countP_set_of_eq {α : Type} (p : α → Bool) (l : List α) (i : Nat) (a : α)
    (h : ∀ b, l[i]? = some b → p b = p a) : (l.set i a).countP p = l.countP p := by
  induction l generalizing i with
  | nil => simp
  | cons x xs ih =>
    cases i with
    | zero =>
      have hx : p x = p a := h x (by simp)
      simp [List.countP_cons, hx]
    | succ j =>
      have := ih j (fun b hb => h b (by simpa using hb))
      simp [List.countP_cons, this]

theorem hasKey_kv (key value : String) (hk : '=' ∉ key.data) :
    hasKey key (key ++ "=" ++ value) = true := by
  simp [hasKey, entryKey_kv key value hk]

theorem hasKey_kv_ne (key k value : String) (hk : '=' ∉ k.data) (hne : k ≠ key) :
    hasKey key (k ++ "=" ++ value) = false := by
  simp [hasKey, entryKey_kv k value hk, hne]

theorem findIdx_hasKey_spec (environ : List String) (key e : String)
    (h : environ[environ.findIdx (hasKey key)]? = some e) : entryKey e = key := by
  have := List.findIdx_of_getElem?_eq_some h
  simpa [hasKey] using this

/-! ## Artifact names -/

/-- Claim C1: `binary.Name(os, arch)` is `name_version_os-arch` when `os` is not
`"windows"`, and that string followed by `.exe` when `os` is `"windows"`. -/
theorem Name_format (bin : binary) (os arch : String) :
    (os ≠ "windows" →
      bin.Name os arch = bin.name ++ "_" ++ bin.version ++ "_" ++ os ++ "-" ++ arch) ∧
    (os = "windows" →
      bin.Name os arch =
        bin.name ++ "_" ++ bin.version ++ "_" ++ os ++ "-" ++ arch ++ ".exe") := by
  constructor
  · intro h
    simp only [binary.Name, Sprintf_name, if_neg h]
  · intro h
    simp only [binary.Name, Sprintf_name, if_pos h]

/-- Claim C2: for each of the six targets configured in `main`, and every name and
version, the artifact name ends in `.exe` exactly when the operating system is
`"windows"`. -/
theorem Name_exe_iff_windows (name version : String) (t : platform) (ht : t ∈ mainTargets) :
    HasSuffix (binary.Name ⟨name, version, mainTargets⟩ t.os t.arch) ".exe" = true ↔
      t.os = "windows" := by
  simp only [HasSuffix, List.isSuffixOf_iff_suffix, Name_data]
  simp only [mainTargets, List.mem_cons, List.mem_singleton, List.not_mem_nil, or_false] at ht
  rcases ht with rfl | rfl | rfl | rfl | rfl | rfl
  all_goals simp only [if_pos, if_neg, List.append_nil]
  all_goals rw [suffix_name_iff _ _ _ _ (by decide)]
  all_goals decide

theorem Name_exe_iff_windows_witness :
    (⟨"windows", "amd64"⟩ : platform) ∈ mainTargets ∧
    (HasSuffix (binary.Name ⟨"example-command", "1.2.3", mainTargets⟩ "windows" "amd64") ".exe"
        = true ↔ "windows" = "windows") :=
  ⟨by decide, Name_exe_iff_windows "example-command" "1.2.3" ⟨"windows", "amd64"⟩ (by decide)⟩

/-- Claim C10: for every name and version the artifact names of the six targets
configured in `main` are pairwise distinct. -/
theorem Names_nodup (name version : String) :
    (binary.Names ⟨name, version, mainTargets⟩).Nodup := by
  simp only [binary.Names, mainTargets, List.map]
  simp [String.ext_iff, Name_data]

/-! ## Overriding an environment variable -/

/-- Claim C3 fails as stated: with two entries for the key, `setEnv` replaces the first
and keeps the second, so the result has two entries for the key. -/
theorem setEnv_duplicate_key_counterexample :
    (∃ e ∈ ["GOOS=linux", "PATH=/bin", "GOOS=darwin"], entryKey e = "GOOS") ∧
    setEnv ["GOOS=linux", "PATH=/bin", "GOOS=darwin"] "GOOS" "windows" =
      ["GOOS=windows", "PATH=/bin", "GOOS=darwin"] ∧
    (setEnv ["GOOS=linux", "PATH=/bin", "GOOS=darwin"] "GOOS" "windows").countP
      (hasKey "GOOS") = 2 := by
  refine ⟨⟨"GOOS=linux", by decide, by decide⟩, by decide, by decide⟩

/-- Claim C3, amended: when `environ` has an entry for `key`, `setEnv` keeps the length,
leaves every entry for another key at its index, puts `key=value` at the index of the
first entry for `key`, and the result has as many entries for `key` as `environ` had;
when `environ` had exactly one, `key=value` is the only entry for `key` in the result. -/
theorem setEnv_existing_key (environ : List String) (key value : String)
    (h : ∃ e ∈ environ, entryKey e = key) :
    (setEnv environ key value).length = environ.length ∧
    (∀ (i : Nat) (e : String), environ[i]? = some e → entryKey e ≠ key →
      (setEnv environ key value)[i]? = some e) ∧
    (setEnv environ key value)[environ.findIdx (hasKey key)]? = some (key ++ "=" ++ value) ∧
    (setEnv environ key value).countP (hasKey key) = environ.countP (hasKey key) ∧
    (environ.countP (hasKey key) = 1 →
      (setEnv environ key value).filter (hasKey key) = [key ++ "=" ++ value]) := by
  have hk : '=' ∉ key.data := by
    obtain ⟨e, _, he⟩ := h
    rw [← he]
    exact entryKey_no_eq e
  have hlt : environ.findIdx (hasKey key) < environ.length :=
    List.findIdx_lt_length_of_exists (by simpa [hasKey] using h)
  have hfirst : (setEnv environ key value)[environ.findIdx (hasKey key)]? =
      some (key ++ "=" ++ value) := by
    rw [setEnv_getElem?, if_pos rfl]
  have hcount : (setEnv environ key value).countP (hasKey key) =
      environ.countP (hasKey key) := by
    rw [setEnv_present _ _ _ h]
    apply countP_set_of_eq
    intro b hb
    rw [hasKey_kv key value hk]
    exact List.findIdx_of_getElem?_eq_some hb
  refine ⟨?_, ?_, hfirst, hcount, ?_⟩
  · rw [setEnv_length, if_pos h]; rfl
  · intro i e hi hne
    rw [setEnv_getElem?, hi]
    have : i ≠ environ.findIdx (hasKey key) := by
      rintro rfl
      exact hne (findIdx_hasKey_spec _ _ _ hi)
    rw [if_neg this]
  · intro hone
    have hlen : ((setEnv environ key value).filter (hasKey key)).length = 1 := by
      rw [← List.countP_eq_length_filter, hcount, hone]
    obtain ⟨x, hx⟩ := List.length_eq_one.mp hlen
    have hmem : key ++ "=" ++ value ∈ (setEnv environ key value).filter (hasKey key) := by
      rw [List.mem_filter]
      exact ⟨List.getElem?_mem hfirst, hasKey_kv key value hk⟩
    rw [hx] at hmem ⊢
    rw [List.mem_singleton.mp hmem]

theorem setEnv_existing_key_witness :
    (∃ e ∈ ["PATH=/bin", "GOOS=linux", "HOME=/root"], entryKey e = "GOOS") ∧
    (setEnv ["PATH=/bin", "GOOS=linux", "HOME=/root"] "GOOS" "windows").filter (hasKey "GOOS")
      = ["GOOS" ++ "=" ++ "windows"] :=
  ⟨⟨"GOOS=linux", by decide, by decide⟩,
    (setEnv_existing_key ["PATH=/bin", "GOOS=linux", "HOME=/root"] "GOOS" "windows"
      ⟨"GOOS=linux", by decide, by decide⟩).2.2.2.2 (by decide)⟩

/-- Claim C4: when no entry of `environ` has `key` as the text before its first `=`,
`setEnv` returns `environ` with the single entry `key=value` appended: the length grows
by one and every original entry keeps its index and content. -/
theorem setEnv_absent_key (environ : List String) (key value : String)
    (h : ∀ e ∈ environ, entryKey e ≠ key) :
    setEnv environ key value = environ ++ [key ++ "=" ++ value] ∧
    (setEnv environ key value).length = environ.length + 1 ∧
    (∀ i : Nat, i < environ.length → (setEnv environ key value)[i]? = environ[i]?) := by
  have heq := setEnv_absent environ key value h
  refine ⟨heq, ?_, ?_⟩
  · rw [heq]; simp
  · intro i hi
    rw [heq, List.getElem?_append_left hi]

theorem setEnv_absent_key_witness :
    (∀ e ∈ ["PATH=/bin", "HOME=/root"], entryKey e ≠ "GOOS") ∧
    setEnv ["PATH=/bin", "HOME=/root"] "GOOS" "linux" =
      ["PATH=/bin", "HOME=/root"] ++ ["GOOS" ++ "=" ++ "linux"] :=
  ⟨by decide, (setEnv_absent_key ["PATH=/bin", "HOME=/root"] "GOOS" "linux" (by decide)).1⟩


theorem mem_setEnv (environ : List String) (key value x : String)
    (hx : x ∈ setEnv environ key value) : x ∈ environ ∨ x = key ++ "=" ++ value := by
  obtain ⟨i, hi⟩ := List.mem_iff_getElem?.mp hx
  rw [setEnv_getElem?] at hi
  split at hi
  · right; exact (Option.some.inj hi).symm
  · left; exact List.getElem?_mem hi

theorem findIdx_setEnv_other (environ : List String) (k k2 v : String)
    (hk : '=' ∉ k.data) (hne : k ≠ k2) (hpres : ∃ e ∈ environ, entryKey e = k2) :
    (setEnv environ k v).findIdx (hasKey k2) = environ.findIdx (hasKey k2) := by
  induction environ with
  | nil => simp at hpres
  | cons e rest ih =>
    by_cases he : entryKey e = k
    · have h1 : hasKey k2 e = false := by simp [hasKey, he, hne]
      rw [setEnv, Split_head, if_pos he, Sprintf_kv, List.findIdx_cons, List.findIdx_cons,
        hasKey_kv_ne k2 k v hk hne, h1]
    · rw [setEnv, Split_head, if_neg he, List.findIdx_cons, List.findIdx_cons]
      by_cases h2 : hasKey k2 e = true
      · simp [h2]
      · have hrest : ∃ x ∈ rest, entryKey x = k2 := by
          obtain ⟨x, hx, hxk⟩ := hpres
          rcases List.mem_cons.mp hx with rfl | hx
          · exact absurd (by simpa [hasKey] using hxk) h2
          · exact ⟨x, hx, hxk⟩
        simp [h2, ih hrest]

theorem findIdx_setEnv_absent (environ : List String) (k k2 v : String)
    (hk : '=' ∉ k.data) (hne : k ≠ k2) (habs : ∀ e ∈ environ, entryKey e ≠ k2) :
    (setEnv environ k v).findIdx (hasKey k2) = (setEnv environ k v).length := by
  apply List.findIdx_eq_length_of_false
  intro x hx
  rcases mem_setEnv _ _ _ _ hx with h | h
  · simpa [hasKey] using habs x h
  · rw [h]; exact hasKey_kv_ne k2 k v hk hne

/-! ## The environment of the compile invocation -/

/-- Claim C5: in the environment that `buildBinary` hands to the compile invocation,
every inherited entry whose key is neither `GOOS` nor `GOARCH` is at its original index
with its original content (as is every inherited entry other than the first one for
`GOOS` and the first one for `GOARCH`); for each of the two keys, the pair `key=value` sits at the
position of the first inherited entry with that key when there is one, and is appended
after the inherited entries otherwise; and the result contains `GOOS=OS` and
`GOARCH=arch`. -/
theorem buildEnv_spec (env : List String) (OS arch : String) :
    (∀ (i : Nat) (e : String), env[i]? = some e → entryKey e ≠ "GOOS" →
      entryKey e ≠ "GOARCH" → (buildEnv env OS arch)[i]? = some e) ∧
    (∀ (i : Nat) (e : String), env[i]? = some e → i ≠ env.findIdx (hasKey "GOOS") →
      i ≠ env.findIdx (hasKey "GOARCH") → (buildEnv env OS arch)[i]? = some e) ∧
    ((∃ e ∈ env, entryKey e = "GOOS") →
      env.findIdx (hasKey "GOOS") < env.length ∧
      (buildEnv env OS arch)[env.findIdx (hasKey "GOOS")]? = some ("GOOS=" ++ OS)) ∧
    ((∀ e ∈ env, entryKey e ≠ "GOOS") →
      (buildEnv env OS arch)[env.length]? = some ("GOOS=" ++ OS)) ∧
    ((∃ e ∈ env, entryKey e = "GOARCH") →
      env.findIdx (hasKey "GOARCH") < env.length ∧
      (buildEnv env OS arch)[env.findIdx (hasKey "GOARCH")]? = some ("GOARCH=" ++ arch)) ∧
    ((∀ e ∈ env, entryKey e ≠ "GOARCH") →
      (buildEnv env OS arch)[env.length + if (∃ e ∈ env, entryKey e = "GOOS") then 0 else 1]?
        = some ("GOARCH=" ++ arch)) ∧
    (buildEnv env OS arch).length =
      env.length + (if (∃ e ∈ env, entryKey e = "GOOS") then 0 else 1) +
        (if (∃ e ∈ env, entryKey e = "GOARCH") then 0 else 1) ∧
    "GOOS=" ++ OS ∈ buildEnv env OS arch ∧ "GOARCH=" ++ arch ∈ buildEnv env OS arch := by
  have e1 : ("GOOS" : String) ++ "=" = "GOOS=" := by decide
  have e2 : ("GOARCH" : String) ++ "=" = "GOARCH=" := by decide
  have hk1 : '=' ∉ ("GOOS" : String).data := by decide
  have hk2 : '=' ∉ ("GOARCH" : String).data := by decide
  have hne : ("GOOS" : String) ≠ "GOARCH" := by decide
  have hcopy : copyOSEnv env = env := by simp [copyOSEnv]
  -- the second override does not touch the pair written by the first
  have hnot2 : ∀ i : Nat, (setEnv env "GOOS" OS)[i]? = some ("GOOS" ++ "=" ++ OS) →
      i ≠ (setEnv env "GOOS" OS).findIdx (hasKey "GOARCH") := by
    rintro i hi rfl
    have := List.findIdx_of_getElem?_eq_some hi
    rw [hasKey_kv_ne "GOARCH" "GOOS" OS hk1 hne] at this
    exact absurd this (by simp)
  have hlen1 := setEnv_length env "GOOS" OS
  have hgoos : (buildEnv env OS arch)[env.findIdx (hasKey "GOOS")]? = some ("GOOS=" ++ OS) := by
    have h1 : (setEnv env "GOOS" OS)[env.findIdx (hasKey "GOOS")]? =
        some ("GOOS" ++ "=" ++ OS) := by rw [setEnv_getElem?, if_pos rfl]
    unfold buildEnv
    rw [hcopy, setEnv_getElem?, if_neg (hnot2 _ h1), h1, e1]
  have hgoarch : (buildEnv env OS arch)[(setEnv env "GOOS" OS).findIdx (hasKey "GOARCH")]? =
      some ("GOARCH=" ++ arch) := by
    unfold buildEnv
    rw [hcopy, setEnv_getElem?, if_pos rfl, e2]
  refine ⟨?_, ?_, ?_, ?_, ?_, ?_, ?_, List.getElem?_mem hgoos, List.getElem?_mem hgoarch⟩
  rotate_left
  · intro i e hi h1 h2
    have hi1 : (setEnv env "GOOS" OS)[i]? = some e := by
      rw [setEnv_getElem?, if_neg h1, hi]
    have hlt : i < env.length := (List.getElem?_eq_some_iff.mp hi).1
    unfold buildEnv
    rw [hcopy, setEnv_getElem?, hi1]
    have : i ≠ (setEnv env "GOOS" OS).findIdx (hasKey "GOARCH") := by
      by_cases hp : ∃ e ∈ env, entryKey e = "GOARCH"
      · rw [findIdx_setEnv_other env "GOOS" "GOARCH" OS hk1 hne hp]
        exact h2
      · have hp2 : ∀ e ∈ env, entryKey e ≠ "GOARCH" := fun e he hk => hp ⟨e, he, hk⟩
        rw [findIdx_setEnv_absent env "GOOS" "GOARCH" OS hk1 hne hp2, hlen1]
        omega
    rw [if_neg this]
  rotate_right
  · intro i e hi h1 h2
    have hi1 : (setEnv env "GOOS" OS)[i]? = some e := by
      rw [setEnv_getElem?, hi]
      have : i ≠ env.findIdx (hasKey "GOOS") := by
        rintro rfl
        exact h1 (findIdx_hasKey_spec _ _ _ hi)
      rw [if_neg this]
    unfold buildEnv
    rw [hcopy, setEnv_getElem?, hi1]
    have : i ≠ (setEnv env "GOOS" OS).findIdx (hasKey "GOARCH") := by
      rintro rfl
      exact h2 (findIdx_hasKey_spec _ _ _ hi1)
    rw [if_neg this]
  · intro h
    exact ⟨List.findIdx_lt_length_of_exists (by simpa [hasKey] using h), hgoos⟩
  · intro h
    have hidx : env.findIdx (hasKey "GOOS") = env.length :=
      List.findIdx_eq_length_of_false (by simpa [hasKey] using h)
    rw [← hidx]
    exact hgoos
  · intro h
    refine ⟨List.findIdx_lt_length_of_exists (by simpa [hasKey] using h), ?_⟩
    rw [← findIdx_setEnv_other env "GOOS" "GOARCH" OS hk1 hne h]
    exact hgoarch
  · intro h
    rw [← hlen1, ← findIdx_setEnv_absent env "GOOS" "GOARCH" OS hk1 hne h]
    exact hgoarch
  · unfold buildEnv
    rw [hcopy, setEnv_length, hlen1]
    have hiff : (∃ e ∈ setEnv env "GOOS" OS, entryKey e = "GOARCH") ↔
        (∃ e ∈ env, entryKey e = "GOARCH") := by
      constructor
      · rintro ⟨x, hx, hxk⟩
        rcases mem_setEnv _ _ _ _ hx with h | h
        · exact ⟨x, h, hxk⟩
        · rw [h, entryKey_kv "GOOS" OS hk1] at hxk
          exact absurd hxk hne
      · intro h
        have hlt : env.findIdx (hasKey "GOARCH") < env.length :=
          List.findIdx_lt_length_of_exists (by simpa [hasKey] using h)
        have hidx := findIdx_setEnv_other env "GOOS" "GOARCH" OS hk1 hne h
        have hlt2 : (setEnv env "GOOS" OS).findIdx (hasKey "GOARCH") <
            (setEnv env "GOOS" OS).length := by
          rw [hidx, hlen1]; omega
        obtain ⟨x, hx, hp⟩ := List.findIdx_lt_length.mp hlt2
        exact ⟨x, hx, by simpa [hasKey] using hp⟩
    simp only [hiff]


/-! ## Version resolution -/

theorem rdropWhile_append_rtakeWhile (p : Char → Bool) (l : List Char) :
    l.rdropWhile p ++ l.rtakeWhile p = l := by
  unfold List.rdropWhile List.rtakeWhile
  rw [← List.reverse_append, List.takeWhile_append_dropWhile, List.reverse_reverse]

theorem TrimPrefix_v (t : List Char) :
    TrimPrefix (String.mk t) "v" = String.mk (match t with | 'v' :: r => r | _ => t) := by
  have h : ("v" : String).data = ['v'] := rfl
  unfold TrimPrefix
  rw [h]
  match t with
  | [] => simp [List.isPrefixOf]
  | c :: r =>
    by_cases hc : c = 'v'
    · subst hc
      simp [List.isPrefixOf]
    · have h1 : (['v'].isPrefixOf (c :: r)) = false := by
        simp [List.isPrefixOf]
        exact fun h => hc h.symm
      rw [h1, if_neg (by simp)]
      split
      · rename_i heq
        simp at heq
        exact absurd heq.1 hc
      · rfl

/-- Claim C6: for every output `o` of a successful `git describe`, `getVersion` returns
`o` without its leading and trailing white space and then without one leading `v`;
`"v1.2.3"` gives `"1.2.3"` and `"1.2.3-4-gabc123"` gives itself, also when the output
ends with a newline. -/
theorem getVersion_ok (o : String) :
    (∃ pre t post : List Char,
      o.data = pre ++ t ++ post ∧
      (∀ c ∈ pre, isSpace c = true) ∧ (∀ c ∈ post, isSpace c = true) ∧
      (∀ c, t.head? = some c → isSpace c = false) ∧
      (∀ c, t.getLast? = some c → isSpace c = false) ∧
      getVersion (.ok o) = .ret (String.mk (match t with | 'v' :: r => r | _ => t))) ∧
    getVersion (.ok "v1.2.3") = .ret "1.2.3" ∧
    getVersion (.ok "1.2.3-4-gabc123") = .ret "1.2.3-4-gabc123" ∧
    getVersion (.ok "v1.2.3\n") = .ret "1.2.3" ∧
    getVersion (.ok "1.2.3-4-gabc123\n") = .ret "1.2.3-4-gabc123" := by
  refine ⟨?_, by decide, by decide, by decide, by decide⟩
  refine ⟨o.data.takeWhile isSpace, (o.data.dropWhile isSpace).rdropWhile isSpace,
    (o.data.dropWhile isSpace).rtakeWhile isSpace, ?_, ?_, ?_, ?_, ?_, ?_⟩
  · rw [List.append_assoc, rdropWhile_append_rtakeWhile, List.takeWhile_append_dropWhile]
  · intro c hc
    exact List.mem_takeWhile_imp hc
  · intro c hc
    exact List.mem_rtakeWhile_imp hc
  · intro c hc
    have hpre : (o.data.dropWhile isSpace).rdropWhile isSpace <+: o.data.dropWhile isSpace :=
      List.rdropWhile_prefix _ _
    obtain ⟨u, hu⟩ := hpre
    have hhead : (o.data.dropWhile isSpace).head? = some c := by
      rw [← hu]
      cases hd : (o.data.dropWhile isSpace).rdropWhile isSpace with
      | nil => rw [hd] at hc; simp at hc
      | cons a r => rw [hd] at hc; simpa using hc
    have := List.head?_dropWhile_not isSpace o.data
    rw [hhead] at this
    simpa using this
  · intro c hc
    have hne : (o.data.dropWhile isSpace).rdropWhile isSpace ≠ [] := by
      intro h; rw [h] at hc; simp at hc
    have := List.rdropWhile_last_not isSpace (o.data.dropWhile isSpace) hne
    rw [List.getLast?_eq_getLast _ hne] at hc
    rw [← Option.some.inj hc]
    simpa using this
  · simp only [getVersion, TrimSpace, TrimPrefix_v]


/-! ## Fan-out and join: invariants -/

theorem countP_set_drop {α : Type} (p : α → Bool) (l : List α) (i : Nat) (a b : α)
    (hb : l[i]? = some b) (hpb : p b = true) (hpa : p a = false) :
    (l.set i a).countP p + 1 = l.countP p := by
  induction l generalizing i with
  | nil => simp at hb
  | cons x xs ih =>
    cases i with
    | zero =>
      have hx : x = b := by simpa using hb
      subst hx
      simp [List.countP_cons, hpb, hpa]
    | succ j =>
      have := ih j (by simpa using hb)
      simp only [List.set_cons_succ, List.countP_cons]
      omega

theorem map_set_of_eq {α β : Type} (f : α → β) (l : List α) (k : Nat) (a b : α)
    (hk : l[k]? = some a) (hf : f b = f a) : (l.set k b).map f = l.map f := by
  rw [List.map_set]
  apply List.ext_getElem?
  intro i
  rw [List.getElem?_set]
  by_cases hi : k = i
  · subst hi
    obtain ⟨hlt, heq⟩ := List.getElem?_eq_some_iff.mp hk
    subst heq
    simp [hlt, hf]
  · simp [hi]

theorem step_inv (bin : binary) (fn : binaryFunc) (s s2 : State) (c : Sched)
    (hinv : Inv bin s) (h : step bin fn s c = some s2) : Inv bin s2 := by
  obtain ⟨pc, wg, gs, events, exited⟩ := s
  obtain ⟨hargs, hcount, hpc⟩ := hinv
  simp only at hargs hcount hpc
  unfold step at h
  split at h
  · exact absurd h (by simp)
  · cases c with
    | caller =>
      cases pc with
      | loop i =>
        simp only at h hpc hcount
        cases ht : bin.targets[i]? with
        | some t =>
          rw [ht] at h
          simp only [Option.some.injEq] at h
          subst h
          have hi : i < bin.targets.length := (List.getElem?_eq_some_iff.mp ht).1
          exact ⟨hargs, by simp [hcount], hpc, hi⟩
        | none =>
          rw [ht] at h
          simp only [Option.some.injEq] at h
          subst h
          have hi : bin.targets.length ≤ i := List.getElem?_eq_none_iff.mp ht
          have hl := congrArg List.length hargs
          simp [launches] at hl
          refine ⟨hargs, by simp [hcount], ?_⟩
          show gs.length = bin.targets.length
          omega
      | spawn i =>
        simp only at h hpc hcount
        cases ht : bin.targets[i]? with
        | none => rw [ht] at h; simp at h
        | some t =>
          rw [ht] at h
          simp only [Option.some.injEq] at h
          subst h
          obtain ⟨hlen, hi⟩ := hpc
          have hL : (launches bin)[i]? = some (bin, t.os, t.arch) := by
            simp [launches, ht]
          refine ⟨?_, ?_, ?_⟩
          · simp only [List.map_append, List.length_append, List.length_singleton, hargs,
              List.map_cons, List.map_nil]
            rw [hlen, List.take_succ, hL]
            rfl
          · simp [hcount, List.countP_append, List.countP_cons]
          · simp [hlen]
      | wait =>
        simp only at h hpc hcount
        split at h
        · rename_i hz
          simp only [Option.some.injEq] at h
          subst h
          refine ⟨hargs, by simpa using hcount, hpc, ?_⟩
          have h0 : (gs.countP fun g => g.status != .finished) = 0 := by
            rw [hz] at hcount
            simpa using hcount.symm
          intro g hg
          have := List.countP_eq_zero.mp h0 g hg
          simpa using this
        · simp at h
      | returned => simp at h
    | fn k =>
      simp only at h
      cases hk : gs[k]? with
      | none => rw [hk] at h; simp at h
      | some g =>
        rw [hk] at h
        simp only at h
        split at h
        · rename_i hrun
          have hmem : g ∈ gs := List.getElem?_mem hk
          have hnotret : pc ≠ .returned := by
            rintro rfl
            have := hpc.2 g hmem
            rw [hrun] at this
            exact absurd this (by decide)
          have hkeep : ∀ g2 : Goroutine, g2.args = g.args → g2.status = g.status →
              Inv bin ⟨pc, wg, gs.set k g2, events, exited⟩ := by
            intro g2 ha hs
            refine ⟨?_, ?_, ?_⟩
            · simp only [List.length_set]
              rw [map_set_of_eq Goroutine.args gs k g g2 hk ha]
              exact hargs
            · simp only
              rw [countP_set_of_eq _ gs k _ (by
                intro b hb
                rw [hk] at hb
                cases hb
                show (g.status != Status.finished) = (g2.status != Status.finished)
                rw [hs])]
              exact hcount
            · cases pc with
              | loop i => simpa using hpc
              | spawn i => simpa using hpc
              | wait => simpa using hpc
              | returned => exact absurd rfl hnotret
          split at h
          · simp only [Option.some.injEq] at h
            subst h
            exact hkeep _ rfl rfl
          · split at h
            · simp only [Option.some.injEq] at h
              subst h
              exact ⟨hargs, hcount, hpc⟩
            · simp only [Option.some.injEq] at h
              subst h
              refine ⟨?_, ?_, ?_⟩
              · simp only [List.length_set]
                rw [map_set_of_eq Goroutine.args gs k g { g with status := .fnReturned } hk rfl]
                exact hargs
              · simp only
                rw [countP_set_of_eq _ gs k _ (by
                  intro b hb
                  rw [hk] at hb
                  cases hb
                  show (g.status != Status.finished) = (Status.fnReturned != Status.finished)
                  rw [hrun]
                  decide)]
                exact hcount
              · cases pc with
                | loop i => simpa using hpc
                | spawn i => simpa using hpc
                | wait => simpa using hpc
                | returned => exact absurd rfl hnotret
        · simp at h
    | done k =>
      simp only at h
      cases hk : gs[k]? with
      | none => rw [hk] at h; simp at h
      | some g =>
        rw [hk] at h
        simp only at h
        split at h
        · rename_i hret
          simp only [Option.some.injEq] at h
          subst h
          have hmem : g ∈ gs := List.getElem?_mem hk
          refine ⟨?_, ?_, ?_⟩
          · simp only [List.length_set]
            rw [map_set_of_eq Goroutine.args gs k g { g with status := .finished } hk rfl]
            exact hargs
          · simp only
            have hd := countP_set_drop (fun g : Goroutine => g.status != .finished) gs k
              { g with status := .finished } g hk (by simp [hret]) (by simp)
            rw [hcount, ← hd]
            push_cast
            ring
          · cases pc with
            | loop i => simpa using hpc
            | spawn i => simpa using hpc
            | wait => simpa using hpc
            | returned =>
              have := hpc.2 g hmem
              rw [hret] at this
              exact absurd this (by decide)
        · simp at h

theorem flatMap_set_of_eq {α β : Type} (f : α → List β) (l : List α) (k : Nat) (a b : α)
    (hk : l[k]? = some a) (hf : f b = f a) : (l.set k b).flatMap f = l.flatMap f := by
  induction l generalizing k with
  | nil => simp
  | cons x xs ih =>
    cases k with
    | zero =>
      have hx : x = a := by simpa using hk
      subst hx
      simp [hf]
    | succ j =>
      have := ih j (by simpa using hk)
      simp [this]

theorem perm_flatMap_set {α β : Type} (f : α → List β) (l : List α) (k : Nat) (a b : α)
    (e : β) (hk : l[k]? = some a) (hf : f b = f a ++ [e]) :
    ((l.set k b).flatMap f).Perm (l.flatMap f ++ [e]) := by
  induction l generalizing k with
  | nil => simp at hk
  | cons x xs ih =>
    cases k with
    | zero =>
      have hx : x = a := by simpa using hk
      subst hx
      simp only [List.set_cons_zero, List.flatMap_cons, hf, List.append_assoc]
      exact List.Perm.append_left _ List.perm_append_comm
    | succ j =>
      have := ih j (by simpa using hk)
      simp only [List.set_cons_succ, List.flatMap_cons, List.append_assoc]
      exact List.Perm.append_left _ this

theorem step_invEv (bin : binary) (fn : binaryFunc) (s s2 : State) (c : Sched)
    (hinv : InvEv fn s) (h : step bin fn s c = some s2) : InvEv fn s2 := by
  obtain ⟨pc, wg, gs, events, exited⟩ := s
  obtain ⟨hev, hpos, hex⟩ := hinv
  simp only at hev hpos hex
  unfold step at h
  split at h
  · exact absurd h (by simp)
  · rename_i hnone
    have hexited : exited = none := by
      cases exited with
      | none => rfl
      | some c => simp at hnone
    subst hexited
    cases c with
    | caller =>
      cases pc with
      | loop i =>
        simp only at h
        cases ht : bin.targets[i]? with
        | some t =>
          rw [ht] at h
          simp only [Option.some.injEq] at h
          subst h
          exact ⟨hev, hpos, hex⟩
        | none =>
          rw [ht] at h
          simp only [Option.some.injEq] at h
          subst h
          exact ⟨hev, hpos, hex⟩
      | spawn i =>
        simp only at h
        cases ht : bin.targets[i]? with
        | none => rw [ht] at h; simp at h
        | some t =>
          rw [ht] at h
          simp only [Option.some.injEq] at h
          subst h
          refine ⟨?_, ?_, by simp⟩
          · simpa [List.flatMap_append, Goroutine.performed] using hev
          · intro g hg hst
            rcases List.mem_append.mp hg with hg | hg
            · exact hpos g hg hst
            · rw [List.mem_singleton.mp hg] at hst
              exact absurd rfl hst
      | wait =>
        simp only at h
        split at h
        · simp only [Option.some.injEq] at h
          subst h
          exact ⟨hev, hpos, hex⟩
        · simp at h
      | returned => simp at h
    | fn k =>
      simp only at h
      cases hk : gs[k]? with
      | none => rw [hk] at h; simp at h
      | some g =>
        rw [hk] at h
        simp only at h
        have hmem : g ∈ gs := List.getElem?_mem hk
        split at h
        · rename_i hrun
          split at h
          · rename_i e hevk
            simp only [Option.some.injEq] at h
            subst h
            refine ⟨?_, ?_, by simp⟩
            · have hf : Goroutine.performed fn { g with pos := g.pos + 1 } =
                  Goroutine.performed fn g ++ [e] := by
                simp only [Goroutine.performed]
                rw [List.take_succ, hevk]
                rfl
              exact (List.Perm.append_right [e] hev).trans
                (perm_flatMap_set _ gs k g _ e hk hf).symm
            · intro g2 hg2 hst
              simp only at hg2
              rcases List.mem_or_eq_of_mem_set hg2 with hg2 | hg2
              · exact hpos g2 hg2 hst
              · subst hg2
                exact absurd hrun hst
          · rename_i hevk
            split at h
            · rename_i code hcode
              simp only [Option.some.injEq] at h
              subst h
              refine ⟨hev, hpos, ?_⟩
              intro c hc
              simp only [Option.some.injEq] at hc
              subst hc
              exact ⟨g, hmem, hrun, hcode⟩
            · simp only [Option.some.injEq] at h
              subst h
              refine ⟨?_, ?_, by simp⟩
              · simp only
                rw [flatMap_set_of_eq (Goroutine.performed fn) gs k g
                  { g with status := .fnReturned } hk rfl]
                exact hev
              · intro g2 hg2 hst
                simp only at hg2
                rcases List.mem_or_eq_of_mem_set hg2 with hg2 | hg2
                · exact hpos g2 hg2 hst
                · subst hg2
                  exact List.getElem?_eq_none_iff.mp hevk
        · simp at h
    | done k =>
      simp only at h
      cases hk : gs[k]? with
      | none => rw [hk] at h; simp at h
      | some g =>
        rw [hk] at h
        simp only at h
        split at h
        · rename_i hret
          simp only [Option.some.injEq] at h
          subst h
          refine ⟨?_, ?_, by simp⟩
          · simp only
            rw [flatMap_set_of_eq (Goroutine.performed fn) gs k g
              { g with status := .finished } hk rfl]
            exact hev
          · intro g2 hg2 hst
            simp only at hg2
            rcases List.mem_or_eq_of_mem_set hg2 with hg2 | hg2
            · exact hpos g2 hg2 hst
            · subst hg2
              exact hpos g (List.getElem?_mem hk) (by rw [hret]; decide)
        · simp at h

theorem exec_inv (bin : binary) (fn : binaryFunc) (sched : List Sched) (s s2 : State)
    (hinv : Inv bin s ∧ InvEv fn s) (h : exec bin fn s sched = some s2) :
    Inv bin s2 ∧ InvEv fn s2 := by
  induction sched generalizing s with
  | nil =>
    simp only [exec, Option.some.injEq] at h
    subst h
    exact hinv
  | cons c cs ih =>
    rw [exec] at h
    cases hs : step bin fn s c with
    | none => rw [hs] at h; simp at h
    | some s1 =>
      rw [hs] at h
      exact ih s1 ⟨step_inv bin fn s s1 c hinv.1 hs, step_invEv bin fn s s1 c hinv.2 hs⟩ h

theorem init_inv (bin : binary) (fn : binaryFunc) : Inv bin State.init ∧ InvEv fn State.init := by
  refine ⟨⟨?_, ?_, ?_⟩, ?_, ?_, ?_⟩ <;> simp [State.init]

/-- Every state that `forEachBinTarget` reaches satisfies the invariants. -/
theorem forEach_inv (bin : binary) (fn : binaryFunc) (sched : List Sched) (s : State)
    (h : forEachBinTarget bin fn sched = some s) : Inv bin s ∧ InvEv fn s :=
  exec_inv bin fn sched State.init s (init_inv bin fn) h

theorem exec_append (bin : binary) (fn : binaryFunc) (s : State) (a b : List Sched) :
    exec bin fn s (a ++ b) = (exec bin fn s a).bind fun s1 => exec bin fn s1 b := by
  induction a generalizing s with
  | nil => simp [exec]
  | cons c cs ih =>
    simp only [List.cons_append, exec]
    cases step bin fn s c with
    | none => simp
    | some s1 => simpa using ih s1

/-! ## Fan-out and join: consequences of the invariants -/

theorem inv_args_mem (bin : binary) (s : State) (hinv : Inv bin s) (g : Goroutine)
    (hg : g ∈ s.gs) : ∃ t ∈ bin.targets, g.bin = bin ∧ g.os = t.os ∧ g.arch = t.arch := by
  have hmem : g.args ∈ s.gs.map Goroutine.args := List.mem_map.mpr ⟨g, hg, rfl⟩
  rw [hinv.1] at hmem
  have hmem2 := List.mem_of_mem_take hmem
  obtain ⟨t, ht, hta⟩ := List.mem_map.mp hmem2
  simp only [Goroutine.args, Prod.mk.injEq] at hta
  exact ⟨t, ht, hta.1.symm, hta.2.1.symm, hta.2.2.symm⟩

/-- Every action in the trace is an action of an invocation of `fn` on a target. -/
theorem forEach_events_mem (bin : binary) (fn : binaryFunc) (sched : List Sched) (s : State)
    (h : forEachBinTarget bin fn sched = some s) (e : Event) (he : e ∈ s.events) :
    ∃ t ∈ bin.targets, e ∈ (fn bin t.os t.arch).events := by
  obtain ⟨hinv, hev, _, _⟩ := forEach_inv bin fn sched s h
  have he2 : e ∈ s.gs.flatMap (Goroutine.performed fn) := hev.subset he
  obtain ⟨g, hg, heg⟩ := List.mem_flatMap.mp he2
  obtain ⟨t, ht, h1, h2, h3⟩ := inv_args_mem bin s hinv g hg
  refine ⟨t, ht, ?_⟩
  have := List.mem_of_mem_take heg
  rw [h1, h2, h3] at this
  exact this

theorem flatMap_performed_finished (fn : binaryFunc) (gs : List Goroutine)
    (h : ∀ g ∈ gs, (fn g.bin g.os g.arch).events.length ≤ g.pos) :
    gs.flatMap (Goroutine.performed fn) =
      (gs.map Goroutine.args).flatMap fun a => (fn a.1 a.2.1 a.2.2).events := by
  induction gs with
  | nil => rfl
  | cons g rest ih =>
    have hg := h g (List.mem_cons_self _ _)
    have hrest := ih (fun x hx => h x (List.mem_cons_of_mem _ hx))
    simp only [List.flatMap_cons, List.map_cons, hrest, Goroutine.performed, Goroutine.args,
      List.take_of_length_le hg]

/-- Once `forEachBinTarget` has returned, one goroutine per target was launched, all of
them have finished, and the trace consists of the actions of these invocations. -/
theorem forEach_returned (bin : binary) (fn : binaryFunc) (sched : List Sched) (s : State)
    (h : forEachBinTarget bin fn sched = some s) (hret : s.pc = .returned) :
    s.gs.map Goroutine.args = launches bin ∧
    s.gs.length = bin.targets.length ∧
    (∀ g ∈ s.gs, g.status = .finished) ∧
    s.wg = 0 ∧
    s.exited = none ∧
    s.events.Perm ((launches bin).flatMap fun a => (fn a.1 a.2.1 a.2.2).events) := by
  obtain ⟨⟨hargs, hcount, hpc⟩, hev, hpos, hex⟩ := forEach_inv bin fn sched s h
  rw [hret] at hpc hcount
  simp only at hpc hcount
  obtain ⟨hlen, hfin⟩ := hpc
  have hmap : s.gs.map Goroutine.args = launches bin := by
    rw [hargs, hlen]
    apply List.take_of_length_le
    simp [launches]
  have h0 : (s.gs.countP fun g => g.status != .finished) = 0 := by
    rw [List.countP_eq_zero]
    intro g hg
    simp [hfin g hg]
  refine ⟨hmap, hlen, hfin, by simp [hcount, h0], ?_, ?_⟩
  · cases hc : s.exited with
    | none => rfl
    | some c =>
      obtain ⟨g, hg, hrun, _⟩ := hex c hc
      rw [hfin g hg] at hrun
      exact absurd hrun (by decide)
  · rw [← hmap, ← flatMap_performed_finished fn s.gs
      (fun g hg => hpos g hg (by rw [hfin g hg]; decide))]
    exact hev

theorem step_exited (bin : binary) (fn : binaryFunc) (s : State) (c : Sched)
    (h : s.exited.isSome = true) : step bin fn s c = none := by
  unfold step
  rw [if_pos h]

/-- After an invocation has terminated the process no thread takes another step. -/
theorem exec_after_exit (bin : binary) (fn : binaryFunc) (s s1 : State)
    (sched : List Sched) (c : Sched) (more : List Sched)
    (h : exec bin fn s sched = some s1) (hex : s1.exited.isSome = true) :
    exec bin fn s (sched ++ c :: more) = none := by
  rw [exec_append, h]
  simp [exec, step_exited bin fn s1 c hex]

/-! ## Fan-out and join: progress -/

theorem sum_map_set (w : Goroutine → Nat) (gs : List Goroutine) (k : Nat) (g g2 : Goroutine)
    (hk : gs[k]? = some g) :
    ((gs.set k g2).map w).sum + w g = (gs.map w).sum + w g2 := by
  induction gs generalizing k with
  | nil => simp at hk
  | cons x xs ih =>
    cases k with
    | zero =>
      have hx : x = g := by simpa using hk
      subst hx
      simp only [List.set_cons_zero, List.map_cons, List.sum_cons]
      omega
    | succ j =>
      have := ih j (by simpa using hk)
      simp only [List.set_cons_succ, List.map_cons, List.sum_cons]
      omega

theorem pending_succ (bin : binary) (fn : binaryFunc) (i : Nat) (t : platform)
    (ht : bin.targets[i]? = some t) :
    pending bin fn i = (fn bin t.os t.arch).events.length + 4 + pending bin fn (i + 1) := by
  obtain ⟨hlt, heq⟩ := List.getElem?_eq_some_iff.mp ht
  unfold pending
  rw [List.drop_eq_getElem_cons hlt, heq]
  simp

/-- When no invocation on a target terminates the process, some thread can take a step
in every state in which `forEachBinTarget` has not returned, and the step brings the
return closer. -/
theorem step_progress (bin : binary) (fn : binaryFunc)
    (hexit : ∀ t ∈ bin.targets, (fn bin t.os t.arch).exit = none) (s : State)
    (hinv : Inv bin s) (hex : s.exited = none) (hpc : s.pc ≠ .returned) :
    ∃ c s2, step bin fn s c = some s2 ∧ s2.exited = none ∧
      s2.work bin fn < s.work bin fn := by
  by_cases hall : ∀ g ∈ s.gs, g.status = .finished
  · obtain ⟨pc, wg, gs, events, exited⟩ := s
    simp only at hex hpc hall
    subst hex
    obtain ⟨hargs, hcount, hlen⟩ := hinv
    simp only at hargs hcount hlen
    cases pc with
    | loop i =>
      cases ht : bin.targets[i]? with
      | some t =>
        refine ⟨.caller, ⟨.spawn i, wg + 1, gs, events, none⟩, ?_, rfl, ?_⟩
        · simp [step, ht]
        · simp only [State.work]; omega
      | none =>
        refine ⟨.caller, ⟨.wait, wg, gs, events, none⟩, ?_, rfl, ?_⟩
        · simp [step, ht]
        · simp only [State.work]; omega
    | spawn i =>
      simp only at hlen
      have ht : bin.targets[i]? = some bin.targets[i] := List.getElem?_eq_getElem hlen.2
      refine ⟨.caller, ⟨.loop (i + 1), wg,
        gs ++ [⟨bin, bin.targets[i].os, bin.targets[i].arch, 0, .running⟩], events, none⟩,
        ?_, rfl, ?_⟩
      · simp [step, ht]
      · simp only [State.work, pending_succ bin fn i _ ht, List.map_append, List.sum_append,
          List.map_cons, List.map_nil, List.sum_cons, List.sum_nil, Goroutine.work]
        omega
    | wait =>
      have h0 : (gs.countP fun g => g.status != .finished) = 0 := by
        rw [List.countP_eq_zero]
        intro g hg
        simp [hall g hg]
      have hwg : wg = 0 := by simpa [h0] using hcount
      refine ⟨.caller, ⟨.returned, wg, gs, events, none⟩, ?_, rfl, ?_⟩
      · simp [step, hwg]
      · simp only [State.work]; omega
    | returned => exact absurd rfl hpc
  · push_neg at hall
    obtain ⟨g, hg, hst⟩ := hall
    obtain ⟨t, ht, h1, h2, h3⟩ := inv_args_mem bin s hinv g hg
    have hgexit : (fn g.bin g.os g.arch).exit = none := by
      rw [h1, h2, h3]; exact hexit t ht
    obtain ⟨k, hk⟩ := List.mem_iff_getElem?.mp hg
    obtain ⟨pc, wg, gs, events, exited⟩ := s
    simp only at hex hk
    subst hex
    cases hs : g.status with
    | finished => exact absurd hs hst
    | running =>
      cases hev : (fn g.bin g.os g.arch).events[g.pos]? with
      | some e =>
        refine ⟨.fn k, ⟨pc, wg, gs.set k { g with pos := g.pos + 1 }, events ++ [e], none⟩,
          ?_, rfl, ?_⟩
        · simp [step, hk, hs, hev]
        · have hlt : g.pos < (fn g.bin g.os g.arch).events.length :=
            (List.getElem?_eq_some_iff.mp hev).1
          have hsum := sum_map_set (Goroutine.work fn) gs k g { g with pos := g.pos + 1 } hk
          have w0 : Goroutine.work fn g =
              ((fn g.bin g.os g.arch).events.length - g.pos) + 2 := by
            simp [Goroutine.work, hs]
          have w1 : Goroutine.work fn { g with pos := g.pos + 1 } =
              ((fn g.bin g.os g.arch).events.length - (g.pos + 1)) + 2 := by
            simp [Goroutine.work, hs]
          rw [w0, w1] at hsum
          simp only [State.work]
          omega
      | none =>
        refine ⟨.fn k, ⟨pc, wg, gs.set k { g with status := .fnReturned }, events, none⟩,
          ?_, rfl, ?_⟩
        · simp [step, hk, hs, hev, hgexit]
        · have hsum := sum_map_set (Goroutine.work fn) gs k g
            { g with status := .fnReturned } hk
          have w0 : Goroutine.work fn g =
              ((fn g.bin g.os g.arch).events.length - g.pos) + 2 := by
            simp [Goroutine.work, hs]
          have w1 : Goroutine.work fn { g with status := .fnReturned } = 1 := rfl
          rw [w0, w1] at hsum
          simp only [State.work]
          omega
    | fnReturned =>
      refine ⟨.done k, ⟨pc, wg - 1, gs.set k { g with status := .finished }, events, none⟩,
        ?_, rfl, ?_⟩
      · simp [step, hk, hs]
      · have hsum := sum_map_set (Goroutine.work fn) gs k g
          { g with status := .finished } hk
        have w0 : Goroutine.work fn g = 1 := by simp [Goroutine.work, hs]
        have w1 : Goroutine.work fn { g with status := .finished } = 0 := rfl
        rw [w0, w1] at hsum
        simp only [State.work]
        omega

theorem exec_progress (bin : binary) (fn : binaryFunc)
    (hexit : ∀ t ∈ bin.targets, (fn bin t.os t.arch).exit = none) (n : Nat) (s : State)
    (hn : s.work bin fn ≤ n) (hinv : Inv bin s) (hex : s.exited = none) :
    ∃ more s2, exec bin fn s more = some s2 ∧ s2.pc = .returned := by
  induction n generalizing s with
  | zero =>
    by_cases hpc : s.pc = .returned
    · exact ⟨[], s, rfl, hpc⟩
    · obtain ⟨c, s1, _, _, hlt⟩ := step_progress bin fn hexit s hinv hex hpc
      omega
  | succ n ih =>
    by_cases hpc : s.pc = .returned
    · exact ⟨[], s, rfl, hpc⟩
    · obtain ⟨c, s1, hstep, hex1, hlt⟩ := step_progress bin fn hexit s hinv hex hpc
      obtain ⟨more, s2, hrun, hret⟩ :=
        ih s1 (by omega) (step_inv bin fn s s1 c hinv hstep) hex1
      refine ⟨c :: more, s2, ?_, hret⟩
      simp [exec, hstep, hrun]

/-- When no invocation on a target terminates the process, every execution of
`forEachBinTarget` can be continued until it returns. -/
theorem forEach_progress (bin : binary) (fn : binaryFunc)
    (hexit : ∀ t ∈ bin.targets, (fn bin t.os t.arch).exit = none) (sched : List Sched)
    (s : State) (h : forEachBinTarget bin fn sched = some s) :
    ∃ more s2, forEachBinTarget bin fn (sched ++ more) = some s2 ∧ s2.pc = .returned := by
  obtain ⟨hinv, _, _, hex⟩ := forEach_inv bin fn sched s h
  have hnone : s.exited = none := by
    cases hc : s.exited with
    | none => rfl
    | some c =>
      obtain ⟨g, hg, _, hgc⟩ := hex c hc
      obtain ⟨t, ht, h1, h2, h3⟩ := inv_args_mem bin s hinv g hg
      rw [h1, h2, h3, hexit t ht] at hgc
      exact absurd hgc (by simp)
  obtain ⟨more, s2, hrun, hret⟩ := exec_progress bin fn hexit _ s le_rfl hinv hnone
  refine ⟨more, s2, ?_, hret⟩
  unfold forEachBinTarget at h ⊢
  rw [exec_append, h]
  exact hrun

/-! ## The actions of `rmBinary` and `buildBinary` -/

theorem Sprintln_two (a b : String) : Sprintln [a, b] = a ++ " " ++ b ++ "\n" := rfl

theorem Sprintf_ldflags (v : String) :
    Sprintf "--ldflags=-X main.version=%s".toList [v] = "--ldflags=-X main.version=" ++ v := by
  apply String.ext
  simp [Sprintf, String.data_append]

theorem flatMap_launches (bin : binary) (fn : binaryFunc) :
    ((launches bin).flatMap fun a => (fn a.1 a.2.1 a.2.2).events) =
      bin.targets.flatMap fun t => (fn bin t.os t.arch).events := by
  unfold launches
  induction bin.targets with
  | nil => rfl
  | cons t rest ih => simp [List.flatMap_cons, ih]

theorem rmBinary_exit (w : World) (bin : binary) (OS arch : String) :
    (rmBinary w bin OS arch).exit = none := by
  unfold rmBinary
  simp only
  split
  · rfl
  · split <;> rfl

theorem rmBinary_removes (w : World) (bin : binary) (OS arch : String) :
    Event.remove (bin.Name OS arch) ∈ (rmBinary w bin OS arch).events := by
  unfold rmBinary
  simp only
  split
  · simp
  · split <;> simp

theorem rmBinary_events (w : World) (bin : binary) (OS arch : String) (e : Event)
    (he : e ∈ (rmBinary w bin OS arch).events) :
    e = Event.remove (bin.Name OS arch) ∨ ∃ m, e = Event.stderr m := by
  unfold rmBinary at he
  simp only at he
  split at he
  · simp at he; exact Or.inl he
  · split at he
    · simp at he
      rcases he with he | he
      · exact Or.inl he
      · exact Or.inr ⟨_, he⟩
    · simp at he; exact Or.inl he

theorem buildBinary_exit (w : World) (bin : binary) (OS arch : String) :
    (buildBinary w bin OS arch).exit = none ∨ (buildBinary w bin OS arch).exit = some 1 := by
  unfold buildBinary
  simp only
  split
  · exact Or.inl rfl
  · exact Or.inr rfl

theorem buildBinary_events (w : World) (bin : binary) (OS arch : String) (e : Event)
    (he : e ∈ (buildBinary w bin OS arch).events) :
    (∃ m, e = Event.stdout m) ∨ (∃ m, e = Event.log m) ∨
    e = Event.run ["go", "build", "--ldflags=-X main.version=" ++ bin.version, "-o",
      bin.Name OS arch] (buildEnv w.environ OS arch) := by
  unfold buildBinary at he
  simp only [Sprintf_ldflags] at he
  split at he
  · simp at he
    rcases he with he | he
    · exact Or.inl ⟨_, he⟩
    · exact Or.inr (Or.inr he)
  · simp at he
    rcases he with he | he | he
    · exact Or.inl ⟨_, he⟩
    · exact Or.inr (Or.inr he)
    · exact Or.inr (Or.inl ⟨_, he⟩)

theorem buildBinary_runs (w : World) (bin : binary) (OS arch : String) :
    Event.run ["go", "build", "--ldflags=-X main.version=" ++ bin.version, "-o",
      bin.Name OS arch] (buildEnv w.environ OS arch) ∈ (buildBinary w bin OS arch).events := by
  unfold buildBinary
  simp only [Sprintf_ldflags]
  split <;> simp

theorem main_release (flags : Flags) (w : World) (out : String) (sched : List Sched)
    (hgit : w.git = .ok out) (hr : flags.release = true) :
    main flags w sched =
      (forEachBinTarget ⟨commandName, TrimPrefix (TrimSpace out) "v", mainTargets⟩
        (buildBinary w) sched).map exitZero := by
  simp [main, getVersion, hgit, hr]

theorem main_clean (flags : Flags) (w : World) (out : String) (sched : List Sched)
    (hgit : w.git = .ok out) (hr : flags.release = false) (hc : flags.clean = true) :
    main flags w sched =
      (forEachBinTarget ⟨commandName, TrimPrefix (TrimSpace out) "v", mainTargets⟩
        (rmBinary w) sched).map exitZero := by
  simp [main, getVersion, hgit, hr, hc]

/-! ## Removal of the artifacts -/

/-- Claim C8: `rmBinary` never terminates the process; when the removal succeeds or
fails with a file-does-not-exist error it writes nothing to the error stream, and when
it fails with another error it writes exactly one `Error removing binary:` line; in a
pass of `forEachBinTarget(bin, rmBinary)` the process is never terminated, once the pass
has returned the trace consists of the actions of the removals of all targets, every
execution of the pass can be continued until it returns, and the pass does return under
some schedule, whatever the outcomes of the removals. -/
theorem rmBinary_spec (w : World) (bin : binary) (OS arch : String) :
    (rmBinary w bin OS arch).exit = none ∧
    (w.remove (bin.Name OS arch) = none →
      (rmBinary w bin OS arch).events = [Event.remove (bin.Name OS arch)]) ∧
    (∀ err, w.remove (bin.Name OS arch) = some err → err.notExist = true →
      (rmBinary w bin OS arch).events = [Event.remove (bin.Name OS arch)]) ∧
    (∀ err, w.remove (bin.Name OS arch) = some err → err.notExist = false →
      (rmBinary w bin OS arch).events =
        [Event.remove (bin.Name OS arch),
         Event.stderr ("Error removing binary: " ++ err.msg ++ "\n")]) ∧
    (∀ sched s, forEachBinTarget bin (rmBinary w) sched = some s →
      s.exited = none ∧
      (s.pc = .returned →
        (∀ t ∈ bin.targets, Event.remove (bin.Name t.os t.arch) ∈ s.events) ∧
        s.events.Perm (bin.targets.flatMap fun t => (rmBinary w bin t.os t.arch).events)) ∧
      (∃ more s2, forEachBinTarget bin (rmBinary w) (sched ++ more) = some s2 ∧
        s2.pc = .returned)) ∧
    (∃ sched s, forEachBinTarget bin (rmBinary w) sched = some s ∧ s.pc = .returned) := by
  refine ⟨rmBinary_exit w bin OS arch, ?_, ?_, ?_, ?_, ?_⟩
  rotate_right
  · obtain ⟨more, s2, h2, hret⟩ := forEach_progress bin (rmBinary w)
      (fun t _ => rmBinary_exit w bin t.os t.arch) [] State.init rfl
    exact ⟨[] ++ more, s2, h2, hret⟩
  · intro h
    simp [rmBinary, h]
  · intro err h hne
    simp [rmBinary, h, hne]
  · intro err h hne
    have e : ("Error removing binary:" : String) ++ " " = "Error removing binary: " := by
      decide
    simp [rmBinary, h, hne, Sprintln_two, e]
  · intro sched s hs
    refine ⟨?_, ?_, ?_⟩
    · obtain ⟨_, _, _, hex⟩ := forEach_inv bin (rmBinary w) sched s hs
      cases hc : s.exited with
      | none => rfl
      | some c =>
        obtain ⟨g, _, _, hg⟩ := hex c hc
        rw [rmBinary_exit] at hg
        exact absurd hg (by simp)
    · intro hret
      have hperm := (forEach_returned bin (rmBinary w) sched s hs hret).2.2.2.2.2
      rw [flatMap_launches] at hperm
      refine ⟨?_, hperm⟩
      intro t ht
      apply hperm.symm.subset
      exact List.mem_flatMap.mpr ⟨t, ht, rmBinary_removes w bin t.os t.arch⟩
    · exact forEach_progress bin (rmBinary w)
        (fun t _ => rmBinary_exit w bin t.os t.arch) sched s hs

/-! ## Fan-out and join -/

/-- Two schedules for two targets: the second goroutine finishes before the first and
the call returns after both; the caller cannot leave `wg.Wait()` while one goroutine is
still running. -/
theorem forEach_two_targets_example :
    (forEachBinTarget ⟨"a", "1", [⟨"linux", "386"⟩, ⟨"windows", "amd64"⟩]⟩
        (rmBinary ⟨[], .ok "", fun _ _ => none, fun _ => none⟩)
        [.caller, .caller, .caller, .caller, .caller, .fn 1, .fn 1, .done 1, .fn 0, .fn 0,
          .done 0, .caller]).map (fun s => (s.pc, s.events)) =
      some (.returned, [Event.remove "a_1_windows-amd64.exe", Event.remove "a_1_linux-386"]) ∧
    forEachBinTarget ⟨"a", "1", [⟨"linux", "386"⟩, ⟨"windows", "amd64"⟩]⟩
        (rmBinary ⟨[], .ok "", fun _ _ => none, fun _ => none⟩)
        [.caller, .caller, .caller, .caller, .caller, .fn 1, .fn 1, .done 1, .caller]
      = none := by
  constructor <;> decide

/-- Claim C9 fails as stated for an action that terminates the process: with two
targets and `buildBinary` as the action, when the first build fails before the second
goroutine is launched, the process ends with one invocation launched and the call never
returns. -/
theorem forEachBinTarget_exit_counterexample :
    (forEachBinTarget ⟨"a", "1", [⟨"linux", "386"⟩, ⟨"linux", "amd64"⟩]⟩
        (buildBinary failingBuilds)
        [.caller, .caller, .fn 0, .fn 0, .fn 0, .fn 0]).map
        (fun s => (s.gs.length, s.exited, s.pc)) = some (1, some 1, .loop 1) ∧
    (∀ c more, forEachBinTarget ⟨"a", "1", [⟨"linux", "386"⟩, ⟨"linux", "amd64"⟩]⟩
        (buildBinary failingBuilds)
        ([.caller, .caller, .fn 0, .fn 0, .fn 0, .fn 0] ++ c :: more) = none) := by
  have h1 : (forEachBinTarget ⟨"a", "1", [⟨"linux", "386"⟩, ⟨"linux", "amd64"⟩]⟩
      (buildBinary failingBuilds)
      [.caller, .caller, .fn 0, .fn 0, .fn 0, .fn 0]).map
      (fun s => (s.gs.length, s.exited, s.pc)) = some (1, some 1, .loop 1) := by decide
  refine ⟨h1, ?_⟩
  intro c more
  cases hs : forEachBinTarget ⟨"a", "1", [⟨"linux", "386"⟩, ⟨"linux", "amd64"⟩]⟩
      (buildBinary failingBuilds) [.caller, .caller, .fn 0, .fn 0, .fn 0, .fn 0] with
  | none => rw [hs] at h1; simp at h1
  | some s1 =>
    rw [hs] at h1
    simp only [Option.map_some', Option.some.injEq, Prod.mk.injEq] at h1
    exact exec_after_exit _ _ _ s1 _ c more hs (by rw [h1.2.1]; rfl)

/-- Claim C9, amended: under every schedule, `forEachBinTarget(bin, fn)` launches
invocations of `fn` for the entries of `bin.targets` in order, each with that entry's os
and arch and the same descriptor, at most one per entry, and every action in the trace
is an action of such an invocation; when it has returned, exactly one invocation per
entry was launched, each has returned and executed `wg.Done()`, no invocation has
terminated the process, and the trace consists of the actions of these invocations, in
whatever order they finished. When no invocation of `fn` terminates the process, every
execution can be continued until the call returns. -/
theorem forEachBinTarget_join (bin : binary) (fn : binaryFunc) :
    (∀ sched s, forEachBinTarget bin fn sched = some s →
      s.gs.map Goroutine.args <+: launches bin ∧
      (∀ e ∈ s.events, ∃ t ∈ bin.targets, e ∈ (fn bin t.os t.arch).events) ∧
      (s.pc = .returned →
        s.gs.map Goroutine.args = launches bin ∧
        s.gs.length = bin.targets.length ∧
        (∀ g ∈ s.gs, g.status = .finished) ∧
        s.wg = 0 ∧
        s.exited = none ∧
        s.events.Perm (bin.targets.flatMap fun t => (fn bin t.os t.arch).events))) ∧
    ((∀ t ∈ bin.targets, (fn bin t.os t.arch).exit = none) →
      ∀ sched s, forEachBinTarget bin fn sched = some s →
        ∃ more s2, forEachBinTarget bin fn (sched ++ more) = some s2 ∧
          s2.pc = .returned) := by
  refine ⟨?_, forEach_progress bin fn⟩
  intro sched s hs
  refine ⟨?_, forEach_events_mem bin fn sched s hs, ?_⟩
  · obtain ⟨⟨hargs, _, _⟩, _⟩ := forEach_inv bin fn sched s hs
    rw [hargs]
    exact List.take_prefix _ _
  · intro hret
    have h := forEach_returned bin fn sched s hs hret
    rw [flatMap_launches] at h
    exact h

/-! ## Action selection in `main` -/

theorem exitZero_events (s : State) : (exitZero s).events = s.events := rfl

/-- With `--release` and failing builds, two invocations of `buildBinary` interleave:
both print their line and start their compile invocation before the first of them
terminates the process. -/
theorem main_release_interleaving_example :
    main ⟨true, false, "linux", "amd64"⟩ failingBuilds
        [.caller, .caller, .caller, .caller, .fn 0, .fn 0, .fn 1, .fn 1, .fn 0, .fn 0] =
      some ⟨[Event.stdout "Building binary: example-command_1.2.3_linux-386\n",
          Event.run ["go", "build", "--ldflags=-X main.version=1.2.3", "-o",
            "example-command_1.2.3_linux-386"] ["PATH=/bin", "GOOS=linux", "GOARCH=386"],
          Event.stdout "Building binary: example-command_1.2.3_linux-amd64\n",
          Event.run ["go", "build", "--ldflags=-X main.version=1.2.3", "-o",
            "example-command_1.2.3_linux-amd64"] ["PATH=/bin", "GOOS=linux", "GOARCH=amd64"],
          Event.log "Error running go build: exit status 2\n"], some 1⟩ := by
  decide

/-- Claim C7 fails as stated when a build fails: with `--release`, when the build of the
first target fails before the second goroutine is launched, the process ends with
status 1 after one compile invocation, and no other target is built. -/
theorem main_release_failed_build_counterexample :
    main ⟨true, false, "linux", "amd64"⟩ failingBuilds
        [.caller, .caller, .fn 0, .fn 0, .fn 0, .fn 0] =
      some ⟨[Event.stdout "Building binary: example-command_1.2.3_linux-386\n",
          Event.run ["go", "build", "--ldflags=-X main.version=1.2.3", "-o",
            "example-command_1.2.3_linux-386"] ["PATH=/bin", "GOOS=linux", "GOARCH=386"],
          Event.log "Error running go build: exit status 2\n"], some 1⟩ ∧
    (∀ c more, main ⟨true, false, "linux", "amd64"⟩ failingBuilds
        ([.caller, .caller, .fn 0, .fn 0, .fn 0, .fn 0] ++ c :: more) = none) := by
  refine ⟨by decide, ?_⟩
  intro c more
  rw [main_release _ failingBuilds "v1.2.3\n" _ rfl rfl]
  have h1 : (forEachBinTarget ⟨commandName, TrimPrefix (TrimSpace "v1.2.3\n") "v", mainTargets⟩
      (buildBinary failingBuilds)
      [.caller, .caller, .fn 0, .fn 0, .fn 0, .fn 0]).map (fun s => s.exited) =
      some (some 1) := by decide
  cases hs : forEachBinTarget ⟨commandName, TrimPrefix (TrimSpace "v1.2.3\n") "v", mainTargets⟩
      (buildBinary failingBuilds) [.caller, .caller, .fn 0, .fn 0, .fn 0, .fn 0] with
  | none => rw [hs] at h1; simp at h1
  | some s1 =>
    rw [hs] at h1
    simp only [Option.map_some', Option.some.injEq] at h1
    have := exec_after_exit _ _ _ s1 _ c more hs (by rw [h1]; rfl)
    unfold forEachBinTarget
    rw [this]
    rfl

/-- Claim C7, amended: once the version is resolved, `main` selects exactly one action.
With `--release` (also together with `--clean`) every action is an action of
`buildBinary` on a configured target and nothing is removed; when the process ends with
status 0 the trace consists of the builds of all configured targets, and it can end so
from every state when no build fails. Otherwise with `--clean` every action is an action
of `rmBinary` on a configured target and no command is run; the process ends with
status 0 only, then the trace consists of the removals of all configured targets, and
it can end so from every state. With neither flag `main` runs `buildBinary` once, for
the pair given by `--os` and `--arch`. -/
theorem main_selects (flags : Flags) (environ : List String) (out : String)
    (goBuild : List String → List String → Option String) (remove : String → Option OSError) :
    let w : World := ⟨environ, .ok out, goBuild, remove⟩
    let bin : binary := ⟨commandName, TrimPrefix (TrimSpace out) "v", mainTargets⟩
    (flags.release = true → ∀ sched r, main flags w sched = some r →
      (∀ e ∈ r.events, ∃ t ∈ mainTargets, e ∈ (buildBinary w bin t.os t.arch).events) ∧
      (∀ path, Event.remove path ∉ r.events) ∧
      (r.exit = some 0 →
        r.events.Perm (mainTargets.flatMap fun t => (buildBinary w bin t.os t.arch).events) ∧
        ∀ t ∈ mainTargets,
          Event.run ["go", "build", "--ldflags=-X main.version=" ++ bin.version, "-o",
            bin.Name t.os t.arch] (buildEnv environ t.os t.arch) ∈ r.events) ∧
      ((∀ t ∈ mainTargets, (buildBinary w bin t.os t.arch).exit = none) →
        ∃ more r2, main flags w (sched ++ more) = some r2 ∧ r2.exit = some 0)) ∧
    (flags.release = false → flags.clean = true → ∀ sched r, main flags w sched = some r →
      (∀ e ∈ r.events, ∃ t ∈ mainTargets, e ∈ (rmBinary w bin t.os t.arch).events) ∧
      (∀ argv env, Event.run argv env ∉ r.events) ∧
      (∀ path, Event.remove path ∈ r.events → path ∈ bin.Names) ∧
      (r.exit = none ∨ r.exit = some 0) ∧
      (r.exit = some 0 →
        r.events.Perm (mainTargets.flatMap fun t => (rmBinary w bin t.os t.arch).events) ∧
        ∀ t ∈ mainTargets, Event.remove (bin.Name t.os t.arch) ∈ r.events) ∧
      (∃ more r2, main flags w (sched ++ more) = some r2 ∧ r2.exit = some 0)) ∧
    (flags.release = false → flags.clean = false → ∀ sched,
      main flags w sched =
        some ⟨(buildBinary w bin flags.buildOS flags.buildArch).events,
          some ((buildBinary w bin flags.buildOS flags.buildArch).exit.getD 0)⟩ ∧
      Event.run ["go", "build", "--ldflags=-X main.version=" ++ bin.version, "-o",
          bin.Name flags.buildOS flags.buildArch] (buildEnv environ flags.buildOS flags.buildArch)
        ∈ (buildBinary w bin flags.buildOS flags.buildArch).events ∧
      (∀ argv env, Event.run argv env ∈ (buildBinary w bin flags.buildOS flags.buildArch).events →
        argv = ["go", "build", "--ldflags=-X main.version=" ++ bin.version, "-o",
          bin.Name flags.buildOS flags.buildArch] ∧
        env = buildEnv environ flags.buildOS flags.buildArch) ∧
      (∀ path, Event.remove path ∉ (buildBinary w bin flags.buildOS flags.buildArch).events)) := by
  intro w bin
  have hnoremove : ∀ (OS arch path : String),
      Event.remove path ∉ (buildBinary w bin OS arch).events := by
    intro OS arch path hmem
    rcases buildBinary_events w bin OS arch _ hmem with ⟨m, hm⟩ | ⟨m, hm⟩ | hm <;> cases hm
  refine ⟨?_, ?_, ?_⟩
  · intro hr sched r hmain
    rw [main_release flags w out sched rfl hr] at hmain
    cases hs : forEachBinTarget bin (buildBinary w) sched with
    | none => rw [hs] at hmain; simp at hmain
    | some s =>
      rw [hs] at hmain
      simp only [Option.map_some', Option.some.injEq] at hmain
      subst hmain
      have hmem := forEach_events_mem bin (buildBinary w) sched s hs
      have hret : (exitZero s).exit = some 0 → s.pc = .returned := by
        intro h0
        by_contra hpc
        simp only [exitZero, if_neg hpc] at h0
        obtain ⟨_, _, _, hex⟩ := forEach_inv bin (buildBinary w) sched s hs
        obtain ⟨g, _, _, hg⟩ := hex 0 h0
        rcases buildBinary_exit w g.bin g.os g.arch with h | h <;> rw [h] at hg <;> cases hg
      refine ⟨hmem, ?_, ?_, ?_⟩
      · intro path hp
        obtain ⟨t, _, ht⟩ := hmem _ hp
        exact hnoremove _ _ _ ht
      · intro h0
        have hperm := (forEach_returned bin (buildBinary w) sched s hs (hret h0)).2.2.2.2.2
        rw [flatMap_launches] at hperm
        refine ⟨hperm, ?_⟩
        intro t ht
        apply hperm.symm.subset
        exact List.mem_flatMap.mpr ⟨t, ht, buildBinary_runs w bin t.os t.arch⟩
      · intro hexit
        obtain ⟨more, s2, hs2, hret2⟩ := forEach_progress bin (buildBinary w) hexit sched s hs
        refine ⟨more, exitZero s2, ?_, ?_⟩
        · rw [main_release flags w out _ rfl hr, hs2]; rfl
        · simp [exitZero, hret2]
  · intro hr hc sched r hmain
    rw [main_clean flags w out sched rfl hr hc] at hmain
    cases hs : forEachBinTarget bin (rmBinary w) sched with
    | none => rw [hs] at hmain; simp at hmain
    | some s =>
      rw [hs] at hmain
      simp only [Option.map_some', Option.some.injEq] at hmain
      subst hmain
      have hmem := forEach_events_mem bin (rmBinary w) sched s hs
      have hnone : s.exited = none := by
        obtain ⟨_, _, _, hex⟩ := forEach_inv bin (rmBinary w) sched s hs
        cases hc : s.exited with
        | none => rfl
        | some c =>
          obtain ⟨g, _, _, hg⟩ := hex c hc
          rw [rmBinary_exit] at hg
          exact absurd hg (by simp)
      have hret : (exitZero s).exit = some 0 → s.pc = .returned := by
        intro h0
        by_contra hpc
        simp [exitZero, if_neg hpc, hnone] at h0
      refine ⟨hmem, ?_, ?_, ?_, ?_, ?_⟩
      · intro argv env hp
        obtain ⟨t, _, ht⟩ := hmem _ hp
        rcases rmBinary_events w bin t.os t.arch _ ht with h | ⟨m, h⟩ <;> cases h
      · intro path hp
        obtain ⟨t, htm, ht⟩ := hmem _ hp
        rcases rmBinary_events w bin t.os t.arch _ ht with h | ⟨m, h⟩
        · cases h
          exact List.mem_map.mpr ⟨t, htm, rfl⟩
        · cases h
      · by_cases hpc : s.pc = .returned
        · right; simp [exitZero, hpc]
        · left; simp [exitZero, hpc, hnone]
      · intro h0
        have hperm := (forEach_returned bin (rmBinary w) sched s hs (hret h0)).2.2.2.2.2
        rw [flatMap_launches] at hperm
        refine ⟨hperm, ?_⟩
        intro t ht
        apply hperm.symm.subset
        exact List.mem_flatMap.mpr ⟨t, ht, rmBinary_removes w bin t.os t.arch⟩
      · obtain ⟨more, s2, hs2, hret2⟩ := forEach_progress bin (rmBinary w)
          (fun t _ => rmBinary_exit w bin t.os t.arch) sched s hs
        refine ⟨more, exitZero s2, ?_, ?_⟩
        · rw [main_clean flags w out _ rfl hr hc, hs2]; rfl
        · simp [exitZero, hret2]
  · intro hr hc sched
    refine ⟨?_, buildBinary_runs w bin _ _, ?_, hnoremove _ _⟩
    · simp [main, getVersion, w, bin, hr, hc]
    · intro argv env hmem
      rcases buildBinary_events w bin _ _ _ hmem with ⟨m, hm⟩ | ⟨m, hm⟩ | hm
      · cases hm
      · cases hm
      · simp only [Event.run.injEq] at hm
        exact hm

end Make
